import Mathlib

/-!
Verification of the track-item consistency engine of the kicad-devel repository
(`pcbnew/trackitems/trackitems_common.cpp`): the net-ordered track list, the
netcode head index (`NETCODE_FIRST_TRACKITEM`), the track re-sort
(`TRACKITEMS::SortTracks`), the net-scan query `TRACKITEMS::GetVia`, and the
cleanup pipeline (`TRACKS_CLEANER`).

The C++ functions are embedded shallowly: board state is a list of track items
(plus pads and zones), pointer walks become index recursion, and the in-place
mutation of the cleanup passes becomes explicit list transformation.  Machine
doubles that appear in `parallelism_test` are modelled by exact integer
rounding to 53 significant bits (the IEEE-754 binary64 significand width).
-/

set_option maxRecDepth 4000

/-!
## Part 1: `parallelism_test` (clean.cpp, lines 1880-1904)

The source returns `((double)dy1 * dx2 == (double)dx1 * dy2)` in its final
branch.  The operands `dy1`, `dx2` are 32-bit ints, hence exactly representable
as binary64; the product is rounded once to 53 significant bits.  `rnd53`
performs exactly this rounding (round to nearest, ties to even), so the double
comparison of the source equals comparison of the `rnd53` images.
-/

/-- Round a natural number to 53 significant bits, nearest, ties to even:
the value of `(double)a * b` for exact nonnegative integer factors. -/
def rnd53Nat (m : Nat) : Nat :=
  if m < 2 ^ 53 then m
  else
    let k := m.log2 - 52
    let q := m / 2 ^ k
    let r := m % 2 ^ k
    let half := 2 ^ (k - 1)
    if half < r ∨ (r = half ∧ q % 2 = 1) then (q + 1) * 2 ^ k else q * 2 ^ k

/-- Rounding of an integer to binary64 (products of 32-bit ints never
overflow the double range, so rounding of the significand is the whole
story). -/
def rnd53 (n : Int) : Int :=
  if n < 0 then -(rnd53Nat n.natAbs : Int) else (rnd53Nat n.natAbs : Int)

/-- Embedding of `static bool parallelism_test( int dx1, int dy1, int dx2, int dy2 )`:
vertical/horizontal shortcut branches, then the double-precision
cross-product comparison. -/
def parallelism_test (dx1 dy1 dx2 dy2 : Int) : Bool :=
  if dx1 = 0 then dx2 = 0
  else if dx2 = 0 then dx1 = 0
  else if dy1 = 0 then dy2 = 0
  else if dy2 = 0 then dy1 = 0
  else rnd53 (dy1 * dx2) = rnd53 (dx1 * dy2)

theorem rnd53Nat_eq_self {m : Nat} (h : m < 2 ^ 53) : rnd53Nat m = m := by
  unfold rnd53Nat
  rw [if_pos h]

theorem rnd53_eq_self {n : Int} (h : n.natAbs < 2 ^ 53) : rnd53 n = n := by
  unfold rnd53
  rcases lt_or_le n 0 with hn | hn
  · rw [if_pos hn, rnd53Nat_eq_self h]
    omega
  · rw [if_neg (not_lt.mpr hn), rnd53Nat_eq_self h]
    omega

/-- C8 (counterexample): the claim says `parallelism_test` returns true iff the
exact cross product vanishes.  At direction vectors `(0,0)` and `(1,1)` the
exact cross product `dy1*dx2 - dx1*dy2 = 0*1 - 0*1` vanishes, yet the
function's vertical-alignment shortcut (`dx1 == 0` requires `dx2 == 0`)
returns `false`. -/
theorem parallelism_test_zero_vector_cex :
    parallelism_test 0 0 1 1 = false ∧ (0 : Int) * 1 = 0 * 1 := by
  constructor
  · rfl
  · rfl

/-- C8 (amended): characterization of `parallelism_test`.  (1) When all four
components are nonzero and both cross products stay below `2^53` in magnitude,
the result is `true` exactly when the integer cross product vanishes
(`dy1*dx2 = dx1*dy2`).  (2) When `dx1` or `dx2` is zero the result is `true`
exactly when both are zero.  (3) Otherwise, when `dy1` or `dy2` is zero the
result is `true` exactly when both are zero.  (Outside the `2^53` range the
comparison is made after rounding each product to binary64, so exactness can
fail there.) -/
theorem parallelism_test_characterization (dx1 dy1 dx2 dy2 : Int) :
    (dx1 ≠ 0 → dy1 ≠ 0 → dx2 ≠ 0 → dy2 ≠ 0 →
        (dy1 * dx2).natAbs < 2 ^ 53 → (dx1 * dy2).natAbs < 2 ^ 53 →
        (parallelism_test dx1 dy1 dx2 dy2 = true ↔ dy1 * dx2 = dx1 * dy2)) ∧
      ((dx1 = 0 ∨ dx2 = 0) →
        (parallelism_test dx1 dy1 dx2 dy2 = true ↔ (dx1 = 0 ∧ dx2 = 0))) ∧
      (dx1 ≠ 0 → dx2 ≠ 0 → (dy1 = 0 ∨ dy2 = 0) →
        (parallelism_test dx1 dy1 dx2 dy2 = true ↔ (dy1 = 0 ∧ dy2 = 0))) := by
  refine ⟨?_, ?_, ?_⟩
  · intro h1 h2 h3 h4 hb1 hb2
    unfold parallelism_test
    rw [if_neg h1, if_neg h3, if_neg h2, if_neg h4]
    rw [rnd53_eq_self hb1, rnd53_eq_self hb2]
    simp
  · intro h
    unfold parallelism_test
    rcases h with h | h
    · rw [if_pos h]
      simp [h]
    · by_cases h1 : dx1 = 0
      · rw [if_pos h1]
        simp [h, h1]
      · rw [if_neg h1, if_pos h]
        simp [h, h1]
  · intro h1 h3 h
    unfold parallelism_test
    rw [if_neg h1, if_neg h3]
    rcases h with h | h
    · rw [if_pos h]
      simp [h]
    · by_cases h2 : dy1 = 0
      · rw [if_pos h2]
        simp [h, h2]
      · rw [if_neg h2, if_pos h]
        simp [h, h2]

/-- Witness for the amended C8 theorem at concrete nonzero vectors `(1,2)`
and `(2,4)`. -/
theorem parallelism_test_characterization_witness :
    parallelism_test 1 2 2 4 = true ↔ (2 : Int) * 2 = 1 * 4 :=
  (parallelism_test_characterization 1 2 2 4).1 (by decide) (by decide)
    (by decide) (by decide) (by decide) (by decide)

/-!
## Part 2: the track data model

`TRACK` / `VIA` (the polymorphic board items) are modelled as a closed
structure with a kind tag, as §9 of the design prescribes.  Only the fields
read by the embedded functions are carried: geometry, width, layer data,
netcode, the `m_Param` sort key, the TrackItems thermal-via data, and the
`START_ON_PAD` / `END_ON_PAD` state flags.
-/

/-- Concrete runtime type of a track item (`PCB_TRACE_T` / `PCB_VIA_T`).
The boards modelled here contain no teardrop or rounded-corner nodes, so the
`PCB_TEARDROP_T` / `PCB_ROUNDEDTRACKSCORNER_T` guards of the cleaner are
vacuous and omitted from the kind tag. -/
inductive TKind where
  | trace : TKind
  | via : TKind
deriving DecidableEq

/-- A track item.  For a via, `start = end_` is the structural invariant,
`viaThrough` is `GetViaType() == VIA_THROUGH`, and `layer`/`layer2` are the
layer pair; a trace lives on the single layer `layer`. -/
structure Track where
  kind : TKind
  viaThrough : Bool
  start : Int × Int
  end_ : Int × Int
  width : Int
  layer : Nat
  layer2 : Nat
  netcode : Nat
  param : Nat
  thermalCode : Nat
  thermalZones : Nat
  startOnPad : Bool
  endOnPad : Bool
deriving DecidableEq

/-- A plain trace of netcode `n`; geometry irrelevant for the list-order
and head-index functions. -/
def mkNet (n : Nat) : Track :=
  { kind := TKind.trace, viaThrough := false, start := (0, 0), end_ := (0, 0),
    width := 0, layer := 0, layer2 := 0, netcode := n, param := 0,
    thermalCode := 0, thermalZones := 0, startOnPad := false, endOnPad := false }

/-- The global ordering invariant of the Net-Ordered Track List:
netcodes are non-decreasing from front to back. -/
def netSorted (l : List Track) : Prop :=
  l.Pairwise fun a b => a.netcode ≤ b.netcode

instance netSorted.decide (l : List Track) : Decidable (netSorted l) := by
  unfold netSorted
  infer_instance

/-!
## Part 3: `NETCODE_FIRST_TRACKITEM` (trackitems_common.cpp, lines 926-1056)

The board's `m_Track` linked list is a `List Track`; an item is identified
by its position, `Back()` is the step from position `p+1` to `p`.  The
`m_netcode_first_trackitems` vector is a `List (Option Nat)` of stored
positions.  `GetAndSync` rewrites only the entry it was queried at and each
entry is queried at most once per `GetBestInsertPoint` call, so the
write-back is observationally irrelevant here and the model is pure.
-/

/-- The backward sync loop inside `GetAndSync`: starting from the stored
item at position `p`, step through `Back()` links until the predecessor has
a smaller netcode, or there is no predecessor and the item's own netcode
matches; walking off the front yields null. -/
def syncWalk (l : List Track) (n : Nat) : Nat → Option Nat
  | 0 =>
    match l.get? 0 with
    | some t => if t.netcode = n then some 0 else none
    | none => none
  | p + 1 =>
    match l.get? p with
    | some back => if back.netcode < n then some (p + 1) else syncWalk l n p
    | none => none

/-- `TRACK* NETCODE_FIRST_TRACKITEM::GetAndSync( const int aNetCode )`:
null when the netcode is outside the vector or the entry is empty,
otherwise the result of the backward sync walk. -/
def GetAndSync (l : List Track) (idx : List (Option Nat)) (n : Nat) : Option Nat :=
  match idx.get? n with
  | none => none
  | some none => none
  | some (some p) => syncWalk l n p

/-- `TRACK* NETCODE_FIRST_TRACKITEM::GetFirst( const int aNetCode )`. -/
def GetFirst (l : List Track) (idx : List (Option Nat)) (n : Nat) : Option Nat :=
  GetAndSync l idx n

/-- The `while( netcode < m_netcode_first_trackitems.size() )` loop of
`GetBestInsertPoint`: scan increasing netcodes; when one resolves and its
first item has a predecessor, return that predecessor. -/
def scanHigher (l : List Track) (idx : List (Option Nat)) : Nat → Nat → Option Nat
  | 0, _ => none
  | fuel + 1, k =>
    if k < idx.length then
      match GetAndSync l idx k with
      | some p => if p = 0 then scanHigher l idx fuel (k + 1) else some (p - 1)
      | none => scanHigher l idx fuel (k + 1)
    else none

/-- `TRACK* NETCODE_FIRST_TRACKITEM::GetBestInsertPoint( const int aNetCode )`.
Returns the position of the returned `TRACK*`; `none` is the null pointer
(empty board). -/
def GetBestInsertPoint (l : List Track) (idx : List (Option Nat)) (n : Nat) :
    Option Nat :=
  let ret : Option Nat :=
    match l with
    | [] => none
    | h :: _ =>
      if n = 0 then none
      else if h.netcode ≤ n then
        let r1 := if n < idx.length then GetAndSync l idx n else none
        match r1 with
        | some p => some p
        | none =>
          match scanHigher l idx idx.length (n + 1) with
          | some p => some p
          | none => some (l.length - 1)
      else none
  match ret with
  | some p => some p
  | none =>
    match l with
    | [] => none
    | _ :: _ => some 0

/-- Modelled from the spec: the caller of `GetBestInsertPoint` (the board's
`Add` path through `DLIST::Insert`, which is not part of this repository
snapshot) splices the new item immediately before the returned item (§4.2:
"returns the list item immediately before which a new item of the given
netcode should be spliced"); a null return appends at the end. -/
def spliceBefore (l : List Track) (pos : Option Nat) (t : Track) : List Track :=
  match pos with
  | some p => l.take p ++ t :: l.drop p
  | none => l ++ [t]

/-- Position of the first item of netcode `n` in the list. -/
def firstIdx (l : List Track) (n : Nat) : Option Nat :=
  match l with
  | [] => none
  | t :: rest => if t.netcode = n then some 0 else (firstIdx rest n).map (· + 1)

/-- The Net Head Index invariant (§3): the vector covers every present
netcode, and each entry holds the position of that net's first item (empty
when the net is empty). -/
def consistentIdx (idx : List (Option Nat)) (l : List Track) : Prop :=
  (∀ t ∈ l, t.netcode < idx.length) ∧
    idx = (List.range idx.length).map fun k => firstIdx l k

instance consistentIdx.decide (idx : List (Option Nat)) (l : List Track) :
    Decidable (consistentIdx idx l) := by
  unfold consistentIdx
  infer_instance

theorem netSorted_get? {l : List Track} {i j : Nat} {a b : Track}
    (hs : netSorted l) (hij : i ≤ j) (ha : l.get? i = some a)
    (hb : l.get? j = some b) : a.netcode ≤ b.netcode := by
  rcases Nat.lt_or_ge i j with hlt | hge
  · obtain ⟨hi, hga⟩ := List.get?_eq_some.mp ha
    obtain ⟨hj, hgb⟩ := List.get?_eq_some.mp hb
    have := (List.pairwise_iff_get.mp hs) ⟨i, hi⟩ ⟨j, hj⟩ hlt
    rw [hga, hgb] at this
    exact this
  · have hij' : i = j := by omega
    subst hij'
    rw [ha] at hb
    cases hb
    exact Nat.le_refl _

theorem firstIdx_spec {l : List Track} {n f : Nat} (hf : firstIdx l n = some f) :
    f < l.length ∧ (∃ t, l.get? f = some t ∧ t.netcode = n) ∧
      ∀ i, i < f → ∀ t, l.get? i = some t → t.netcode ≠ n := by
  induction l generalizing f with
  | nil => simp [firstIdx] at hf
  | cons t rest ih =>
    by_cases ht : t.netcode = n
    · rw [firstIdx, if_pos ht] at hf
      cases hf
      refine ⟨by simp, ⟨t, by simp, ht⟩, ?_⟩
      intro i hi
      omega
    · rw [firstIdx, if_neg ht] at hf
      rcases hg : firstIdx rest n with _ | g
      · rw [hg] at hf
        simp at hf
      · rw [hg] at hf
        simp at hf
        obtain ⟨hlen, ⟨u, hgu, hun⟩, hbef⟩ := ih hg
        refine ⟨by simp; omega, ⟨u, by rw [← hf]; simpa using hgu, hun⟩, ?_⟩
        intro i hif v hgv
        cases i with
        | zero =>
          rw [List.get?_cons_zero] at hgv
          cases hgv
          exact ht
        | succ j =>
          rw [List.get?_cons_succ] at hgv
          exact hbef j (by omega) v hgv

theorem firstIdx_isSome_of_mem {l : List Track} {n : Nat}
    (h : ∃ u ∈ l, u.netcode = n) : ∃ f, firstIdx l n = some f := by
  induction l with
  | nil => simp at h
  | cons t rest ih =>
    by_cases ht : t.netcode = n
    · exact ⟨0, by rw [firstIdx, if_pos ht]⟩
    · obtain ⟨u, hu, hun⟩ := h
      rcases List.mem_cons.mp hu with rfl | hmem
      · exact absurd hun ht
      · obtain ⟨g, hg⟩ := ih ⟨u, hmem, hun⟩
        exact ⟨g + 1, by rw [firstIdx, if_neg ht, hg]; rfl⟩

theorem syncWalk_finds {l : List Track} {n f : Nat}
    (hs : netSorted l) (hf : firstIdx l n = some f) :
    ∀ p, f ≤ p → p < l.length → syncWalk l n p = some f := by
  intro p
  induction p with
  | zero =>
    intro hfp _
    have hf0 : f = 0 := Nat.le_zero.mp hfp
    subst hf0
    obtain ⟨_, ⟨t, hgt, htn⟩, _⟩ := firstIdx_spec hf
    show (match l.get? 0 with
      | some t => if t.netcode = n then some 0 else none
      | none => none) = some 0
    rw [hgt]
    simp [htn]
  | succ q ih =>
    intro hfp hp
    obtain ⟨hflen, ⟨t, hgt, htn⟩, hbef⟩ := firstIdx_spec hf
    have hq : q < l.length := by omega
    obtain ⟨back, hback⟩ : ∃ b, l.get? q = some b :=
      ⟨l.get ⟨q, hq⟩, List.get?_eq_get hq⟩
    have hstep : syncWalk l n (q + 1) =
        if back.netcode < n then some (q + 1) else syncWalk l n q := by
      show (match l.get? q with
        | some back => if back.netcode < n then some (q + 1) else syncWalk l n q
        | none => none) = _
      rw [hback]
    rcases Nat.lt_or_ge f (q + 1) with hlt | hge
    · have hfq : f ≤ q := by omega
      have hge' : n ≤ back.netcode := by
        have := netSorted_get? hs hfq hgt hback
        omega
      rw [hstep, if_neg (by omega)]
      exact ih hfq (by omega)
    · have hfq1 : f = q + 1 := by omega
      subst hfq1
      have hlt' : back.netcode < n := by
        have hle := netSorted_get? hs (Nat.le_succ q) hback hgt
        have hne := hbef q (by omega) back hback
        omega
      rw [hstep, if_pos hlt']

theorem consistentIdx_get? {idx : List (Option Nat)} {l : List Track} {n : Nat}
    (hc : consistentIdx idx l) (hn : n < idx.length) :
    idx.get? n = some (firstIdx l n) := by
  obtain ⟨_, heq⟩ := hc
  conv_lhs => rw [heq]
  rw [List.get?_map, List.get?_range (by simpa using hn)]
  rfl

theorem firstIdx_take_lt {l : List Track} {n f : Nat} (hs : netSorted l)
    (hf : firstIdx l n = some f) : ∀ a ∈ l.take f, a.netcode < n := by
  induction l generalizing f with
  | nil => simp
  | cons t rest ih =>
    by_cases ht : t.netcode = n
    · rw [firstIdx, if_pos ht] at hf
      cases hf
      simp
    · rw [firstIdx, if_neg ht] at hf
      rcases hg : firstIdx rest n with _ | g
      · rw [hg] at hf
        simp at hf
      · rw [hg] at hf
        simp at hf
        subst hf
        intro a ha
        rw [List.take_succ_cons] at ha
        have hrest : netSorted rest := (List.pairwise_cons.mp hs).2
        rcases List.mem_cons.mp ha with rfl | hmem
        · obtain ⟨_, ⟨u, hgu, hun⟩, _⟩ := firstIdx_spec hg
          have hule : a.netcode ≤ u.netcode :=
            (List.pairwise_cons.mp hs).1 u (List.get?_mem hgu)
          omega
        · exact ih hrest hg a hmem

theorem firstIdx_drop_ge {l : List Track} {n f : Nat} (hs : netSorted l)
    (hf : firstIdx l n = some f) : ∀ b ∈ l.drop f, n ≤ b.netcode := by
  induction l generalizing f with
  | nil => simp
  | cons t rest ih =>
    by_cases ht : t.netcode = n
    · rw [firstIdx, if_pos ht] at hf
      cases hf
      intro b hb
      rcases List.mem_cons.mp (by simpa using hb) with rfl | hmem
      · omega
      · have := (List.pairwise_cons.mp hs).1 b hmem
        omega
    · rw [firstIdx, if_neg ht] at hf
      rcases hg : firstIdx rest n with _ | g
      · rw [hg] at hf
        simp at hf
      · rw [hg] at hf
        simp at hf
        subst hf
        intro b hb
        rw [List.drop_succ_cons] at hb
        exact ih (List.pairwise_cons.mp hs).2 hg b hb

/-- C3 (counterexample): the claim asserts `GetFirst` returns an item of the
requested netcode whenever the net is non-empty, "even when the stored index
entry is stale".  On the sorted list with netcodes `[0, 2, 3]`, a stale entry
for netcode 3 pointing at position 1 (an item that now belongs to net 2,
i.e. before net 3's block) makes the backward sync walk stop at position 1 —
its predecessor has netcode `0 < 3` — so `GetFirst` returns the netcode-2
item although net 3 is non-empty. -/
theorem GetFirst_stale_before_cex :
    List.map Track.netcode [mkNet 0, mkNet 2, mkNet 3] = [0, 2, 3] ∧
    netSorted [mkNet 0, mkNet 2, mkNet 3] ∧
    GetFirst [mkNet 0, mkNet 2, mkNet 3] [none, none, none, some 1] 3 = some 1 ∧
    (List.get? [mkNet 0, mkNet 2, mkNet 3] 1).map Track.netcode = some 2 := by
  decide

/-- C3 (amended): on a net-sorted list, if the stored entry for netcode `n`
points at a valid position at or after the first item of net `n`, then
`GetFirst` returns exactly that first item: its netcode is `n` and its
predecessor, when it exists, has a strictly smaller netcode.  (A stale entry
pointing before the net's first item, or an empty entry, can instead yield
an item of the wrong netcode or null — see the counterexample.) -/
theorem GetFirst_stale_at_or_after (l : List Track) (idx : List (Option Nat))
    (n f p : Nat) (hs : netSorted l) (hf : firstIdx l n = some f)
    (hidx : idx.get? n = some (some p)) (hp : p < l.length) (hfp : f ≤ p) :
    GetFirst l idx n = some f ∧
      (∃ t, l.get? f = some t ∧ t.netcode = n) ∧
      (∀ b, l.get? (f - 1) = some b → f ≠ 0 → b.netcode < n) := by
  obtain ⟨hflen, ⟨t, hgt, htn⟩, hbef⟩ := firstIdx_spec hf
  refine ⟨?_, ⟨t, hgt, htn⟩, ?_⟩
  · show GetAndSync l idx n = some f
    unfold GetAndSync
    rw [hidx]
    exact syncWalk_finds hs hf p hfp hp
  · intro b hb hf0
    have h1 : f - 1 < f := by omega
    have hne := hbef (f - 1) h1 b hb
    have hle := netSorted_get? hs (le_of_lt h1) hb hgt
    omega

/-- Witness for the amended C3 theorem: netcodes `[1, 2, 2]`, stale entry for
net 2 pointing one past its first item. -/
theorem GetFirst_stale_at_or_after_witness :
    GetFirst [mkNet 1, mkNet 2, mkNet 2] [none, some 0, some 2] 2 = some 1 ∧
      (∃ t, List.get? [mkNet 1, mkNet 2, mkNet 2] 1 = some t ∧ t.netcode = 2) ∧
      (∀ b, List.get? [mkNet 1, mkNet 2, mkNet 2] (1 - 1) = some b → 1 ≠ 0 →
        b.netcode < 2) :=
  GetFirst_stale_at_or_after [mkNet 1, mkNet 2, mkNet 2] [none, some 0, some 2]
    2 1 2 (by decide) (by decide) (by decide) (by decide) (by decide)

theorem GetBestInsertPoint_cons_sync {h : Track} {rest : List Track}
    {idx : List (Option Nat)} {n f : Nat} (hn : ¬ n = 0) (hh : h.netcode ≤ n)
    (hlen : n < idx.length) (hga : GetAndSync (h :: rest) idx n = some f) :
    GetBestInsertPoint (h :: rest) idx n = some f := by
  simp only [GetBestInsertPoint]
  rw [if_neg hn, if_pos hh, if_pos hlen, hga]

/-- C2 (counterexample): the claim asserts that splicing a new item of any
positive netcode at the returned position keeps the list netcode-sorted.
On the sorted one-item board with netcode `[1]` and a fully consistent head
index, `GetBestInsertPoint 3` falls through to the `GetLast()` fallback and
returns the last (only) item; splicing the netcode-3 item immediately before
it yields netcodes `[3, 1]`, which violates the ordering invariant (the
new item should have been appended after the last item). -/
theorem GetBestInsertPoint_append_cex :
    netSorted [mkNet 1] ∧ consistentIdx [none, some 0] [mkNet 1] ∧
    GetBestInsertPoint [mkNet 1] [none, some 0] 3 = some 0 ∧
    ¬ netSorted (spliceBefore [mkNet 1]
        (GetBestInsertPoint [mkNet 1] [none, some 0] 3) (mkNet 3)) := by
  decide

/-- C2 (amended): when the head index is consistent and the requested
(positive) netcode already has at least one item in the sorted list,
`GetBestInsertPoint` returns that net's first item and splicing the new item
immediately before it preserves the non-decreasing netcode order.  (When the
net is empty the `step-back` and `GetLast()` paths can return an item whose
netcode is smaller than the request, and splicing before it breaks the
order — see the counterexample.) -/
theorem GetBestInsertPoint_occupied_sorted (l : List Track)
    (idx : List (Option Nat)) (t : Track) (hs : netSorted l)
    (hc : consistentIdx idx l) (hn : ¬ t.netcode = 0)
    (hocc : ∃ u ∈ l, u.netcode = t.netcode) :
    netSorted (spliceBefore l (GetBestInsertPoint l idx t.netcode) t) := by
  obtain ⟨f, hf⟩ := firstIdx_isSome_of_mem hocc
  obtain ⟨hflen, ⟨u, hgu, hun⟩, hbef⟩ := firstIdx_spec hf
  obtain ⟨u0, hu0, hu0n⟩ := hocc
  have hnidx : t.netcode < idx.length := hu0n ▸ hc.1 u0 hu0
  cases l with
  | nil => simp [firstIdx] at hf
  | cons h rest =>
    have hhead : h.netcode ≤ t.netcode := by
      have hg0 : (h :: rest).get? 0 = some h := rfl
      have := netSorted_get? hs (Nat.zero_le f) hg0 hgu
      omega
    have hga : GetAndSync (h :: rest) idx t.netcode = some f := by
      unfold GetAndSync
      rw [consistentIdx_get? hc hnidx, hf]
      exact syncWalk_finds hs hf f (le_refl f) hflen
    rw [GetBestInsertPoint_cons_sync hn hhead hnidx hga]
    show netSorted ((h :: rest).take f ++ t :: (h :: rest).drop f)
    unfold netSorted
    rw [List.pairwise_append]
    refine ⟨List.Pairwise.sublist (List.take_sublist _ _) hs, ?_, ?_⟩
    · rw [List.pairwise_cons]
      constructor
      · intro b hb
        have := firstIdx_drop_ge hs hf b hb
        omega
      · exact List.Pairwise.sublist (List.drop_sublist _ _) hs
    · intro a ha b hb
      have ha' := firstIdx_take_lt hs hf a ha
      rcases List.mem_cons.mp hb with rfl | hmem
      · omega
      · have := firstIdx_drop_ge hs hf b hmem
        omega

/-- Witness for the amended C2 theorem: inserting a second netcode-2 item
into the sorted list `[1, 2]` with a consistent index. -/
theorem GetBestInsertPoint_occupied_sorted_witness :
    netSorted (spliceBefore [mkNet 1, mkNet 2]
      (GetBestInsertPoint [mkNet 1, mkNet 2] [none, some 0, some 1]
        (mkNet 2).netcode) (mkNet 2)) :=
  GetBestInsertPoint_occupied_sorted [mkNet 1, mkNet 2] [none, some 0, some 1]
    (mkNet 2) (by decide) (by decide) (by decide) (by decide)

/-!
## Part 4: `TRACKITEMS::SortTracks` (trackitems_common.cpp, lines 1063-1094)

The pop loop stores each item's original position in `m_Param`
(`m_Board->m_Track->m_Param = n` just before `PopFront`), then `std::sort`
runs with the comparator `rule`: netcode first, `m_Param` second.  Because
the params are pairwise distinct, `rule` is a strict total order, so the
comparator-sorted permutation required from `std::sort` is unique;
`insertionSort` by the reflexive closure of `rule` computes exactly it.
-/

/-- Reflexive closure of the `rule` comparator of `SortTracks`. -/
def netParamLe (a b : Track) : Prop :=
  a.netcode < b.netcode ∨ (a.netcode = b.netcode ∧ a.param ≤ b.param)

instance netParamLe.decide : DecidableRel netParamLe := fun a b => by
  unfold netParamLe
  infer_instance

instance netParamLe.total : IsTotal Track netParamLe :=
  ⟨by
    intro a b
    unfold netParamLe
    omega⟩

instance netParamLe.trans : IsTrans Track netParamLe :=
  ⟨by
    intro a b c
    unfold netParamLe
    omega⟩

/-- The tagging loop of `SortTracks`: the n-th popped item records its
original position in `m_Param`. -/
def tagParams (l : List Track) : List Track :=
  l.enum.map fun p => { p.2 with param := p.1 }

/-- `void TRACKITEMS::SortTracks( void )` as a function on the track list. -/
def SortTracks (l : List Track) : List Track :=
  List.insertionSort netParamLe (tagParams l)

theorem tagParams_map_param (l : List Track) :
    (tagParams l).map Track.param = List.range l.length := by
  unfold tagParams
  rw [List.map_map]
  have h : (Track.param ∘ fun p : Nat × Track => { p.2 with param := p.1 }) =
      Prod.fst := rfl
  rw [h, List.enum_map_fst]

/-- C4: after `SortTracks`, (1) the netcodes are non-decreasing from front to
back, (2) the result is a permutation of the original items tagged with
their original positions, and (3) two items with equal netcodes keep their
original relative order: the earlier one carries the smaller original
position tag — the sort is stable with respect to the original sequence. -/
theorem SortTracks_sorted_stable (l : List Track) :
    (SortTracks l).Pairwise (fun a b => a.netcode ≤ b.netcode) ∧
    (SortTracks l).Perm (tagParams l) ∧
    ∀ i j (hi : i < (SortTracks l).length) (hj : j < (SortTracks l).length),
      i < j →
      ((SortTracks l).get ⟨i, hi⟩).netcode = ((SortTracks l).get ⟨j, hj⟩).netcode →
      ((SortTracks l).get ⟨i, hi⟩).param < ((SortTracks l).get ⟨j, hj⟩).param := by
  have hperm : (SortTracks l).Perm (tagParams l) := List.perm_insertionSort _ _
  have hsorted : List.Sorted netParamLe (SortTracks l) :=
    List.sorted_insertionSort _ _
  refine ⟨?_, hperm, ?_⟩
  · exact hsorted.imp fun hab => by
      unfold netParamLe at hab
      omega
  · intro i j hi hj hij hnet
    have hR := (List.pairwise_iff_get.mp hsorted) ⟨i, hi⟩ ⟨j, hj⟩ hij
    have hnodup : ((SortTracks l).map Track.param).Nodup := by
      have h1 : ((SortTracks l).map Track.param).Perm
          ((tagParams l).map Track.param) := hperm.map _
      rw [tagParams_map_param] at h1
      exact h1.nodup_iff.mpr (List.nodup_range _)
    have hpw : (SortTracks l).Pairwise fun a b => a.param ≠ b.param :=
      List.pairwise_map.mp hnodup
    have hne := (List.pairwise_iff_get.mp hpw) ⟨i, hi⟩ ⟨j, hj⟩ hij
    unfold netParamLe at hR
    omega

/-- Witness for the C4 theorem on the concrete list with netcodes
`[2, 1, 2]`: the sorted result is netcode-ordered and the two netcode-2
items keep their original relative order (original positions 0 and 2). -/
theorem SortTracks_sorted_stable_witness :
    (SortTracks [mkNet 2, mkNet 1, mkNet 2]).Pairwise
        (fun a b => a.netcode ≤ b.netcode) ∧
      ((SortTracks [mkNet 2, mkNet 1, mkNet 2]).get ⟨1, by decide⟩).param <
        ((SortTracks [mkNet 2, mkNet 1, mkNet 2]).get ⟨2, by decide⟩).param :=
  ⟨(SortTracks_sorted_stable [mkNet 2, mkNet 1, mkNet 2]).1,
    (SortTracks_sorted_stable [mkNet 2, mkNet 1, mkNet 2]).2.2 1 2 (by decide)
      (by decide) (by decide) (by decide)⟩

/-!
## Part 5: `TRACKITEMS::GetVia` (trackitems_common.cpp, lines 140-177)

`NET_SCAN_BASE::Execute` lives in the missing header `trackitems.h`; per
§4.3 of the design it walks forward from the start item, visiting every item
sharing the start item's netcode, until the per-item predicate signals found
or the net boundary is reached.  `NET_SCAN_GET_VIA::ExecuteAt` accepts a via
on the start track's layer whose `GetStart()` equals the queried position.
-/

/-- A trace of netcode `n` between points `a` and `b` (layer 0, width 10). -/
def mkTrace (n : Nat) (a b : Int × Int) : Track :=
  { kind := TKind.trace, viaThrough := false, start := a, end_ := b, width := 10,
    layer := 0, layer2 := 0, netcode := n, param := 0, thermalCode := 0,
    thermalZones := 0, startOnPad := false, endOnPad := false }

/-- A through via of netcode `n` at point `a`. -/
def mkVia (n : Nat) (a : Int × Int) : Track :=
  { kind := TKind.via, viaThrough := true, start := a, end_ := a, width := 10,
    layer := 0, layer2 := 1, netcode := n, param := 0, thermalCode := 0,
    thermalZones := 0, startOnPad := false, endOnPad := false }

/-- `TRACK::IsOnLayer`: a trace is on its single layer; a through via is on
every copper layer, a blind/buried via on its layer-pair range. -/
def Track.isOnLayer (t : Track) (lay : Nat) : Bool :=
  match t.kind with
  | TKind.trace => t.layer = lay
  | TKind.via =>
    t.viaThrough || (decide (min t.layer t.layer2 ≤ lay) &&
      decide (lay ≤ max t.layer t.layer2))

/-- Modelled from the spec: the forward walk of `NET_SCAN_BASE::Execute`
(§4.3) — visit items from position `i` on while their netcode equals the
scan net, returning the first item accepted by the predicate. -/
def netScanForward (l : List Track) (net : Nat) (pred : Track → Bool) :
    Nat → Nat → Option Track
  | 0, _ => none
  | fuel + 1, i =>
    match l.get? i with
    | none => none
    | some t =>
      if t.netcode = net then
        if pred t then some t else netScanForward l net pred fuel (i + 1)
      else none

/-- `VIA* TRACKITEMS::GetVia( const TRACK* aTrackSegAt, const wxPoint aPosAt )`:
null for a null track pointer or a position that is neither endpoint of the
track; otherwise the `NET_SCAN_GET_VIA` scan over the track's net.  The
track pointer is modelled by the track's position in the list. -/
def GetVia (l : List Track) (trk : Option Nat) (pos : Int × Int) :
    Option Track :=
  match trk with
  | none => none
  | some i =>
    match l.get? i with
    | none => none
    | some t =>
      if t.start = pos ∨ t.end_ = pos then
        netScanForward l t.netcode
          (fun u => decide (u.kind = TKind.via) && u.isOnLayer t.layer &&
            decide (u.start = pos))
          (l.length - i) i
      else none

/-- C10: `GetVia` returns null whenever the track argument is null or the
queried position equals neither the start nor the end of the track — the
guard fires before any scan, so this holds even if a via of the same net
exists at the position; a net scan is only started when the position is one
of the track's two endpoints. -/
theorem GetVia_requires_endpoint (l : List Track) (trk : Option Nat)
    (pos : Int × Int)
    (h : trk = none ∨ ∃ i t, trk = some i ∧ l.get? i = some t ∧
      ¬ t.start = pos ∧ ¬ t.end_ = pos) :
    GetVia l trk pos = none := by
  rcases h with rfl | ⟨i, t, rfl, hgt, h1, h2⟩
  · rfl
  · show (match l.get? i with
      | none => none
      | some t =>
        if t.start = pos ∨ t.end_ = pos then
          netScanForward l t.netcode
            (fun u => decide (u.kind = TKind.via) && u.isOnLayer t.layer &&
              decide (u.start = pos))
            (l.length - i) i
        else none) = none
    rw [hgt]
    exact if_neg (by tauto)

/-- Witness for the C10 theorem: the board holds a net-5 via at `(3,4)`,
yet querying the net-5 trace at the non-endpoint position `(3,4)` yields
null. -/
theorem GetVia_requires_endpoint_witness :
    GetVia [mkTrace 5 (0, 0) (1, 0), mkVia 5 (3, 4)] (some 0) (3, 4) = none ∧
      List.get? [mkTrace 5 (0, 0) (1, 0), mkVia 5 (3, 4)] 1 =
        some (mkVia 5 (3, 4)) :=
  ⟨GetVia_requires_endpoint [mkTrace 5 (0, 0) (1, 0), mkVia 5 (3, 4)] (some 0)
      (3, 4)
      (Or.inr ⟨0, mkTrace 5 (0, 0) (1, 0), rfl, by decide, by decide, by decide⟩),
    by decide⟩

/-!
## Part 6: board model and connectivity for the cleanup pipeline

`TRACKS_CLEANER` inherits from `CONNECTIONS` (connect.cpp, absent from this
snapshot); following §4.4, connectivity is geometric: a pad is connected to
an item when its hit test accepts one of the item's endpoints on a shared
layer, and two items touch when they share an endpoint and a layer.  The
pad hit test is position coincidence (pads are points here).  §4.4's
"filtered to the same net" cannot apply to pad connectivity — the
short-circuit pass (§8) removes traces landing on pads of a *different*
net — so it is omitted.
-/

/-- An external pad (read-only for the core): position, net, layer set. -/
structure Pad where
  pos : Int × Int
  netcode : Nat
  layers : List Nat
deriving DecidableEq

/-- A filled copper area, abstracted (modelled from the spec, §6) as a
finite set of covered sample points with a net and a layer range. -/
structure Zone where
  netcode : Nat
  layerLo : Nat
  layerHi : Nat
  points : List (Int × Int)
deriving DecidableEq

/-- The board state the cleaner works on. -/
structure Board where
  tracks : List Track
  pads : List Pad
  zones : List Zone
  copperLayers : Nat
deriving DecidableEq

/-- `ENDPOINT_T`. -/
inductive Endpoint where
  | start : Endpoint
  | end_ : Endpoint
deriving DecidableEq

/-- `TRACK::GetEndPoint`. -/
def Track.endPoint (t : Track) : Endpoint → Int × Int
  | Endpoint.start => t.start
  | Endpoint.end_ => t.end_

/-- Lowest layer of an item's span (a trace's single layer, a via's pair). -/
def Track.layLo (t : Track) : Nat :=
  match t.kind with
  | TKind.trace => t.layer
  | TKind.via => min t.layer t.layer2

/-- Highest layer of an item's span. -/
def Track.layHi (t : Track) : Nat :=
  match t.kind with
  | TKind.trace => t.layer
  | TKind.via => max t.layer t.layer2

/-- Modelled from the spec (§4.4): layer overlap of two items; a through
via spans all copper layers. -/
def sharesLayer (a b : Track) : Bool :=
  (decide (a.kind = TKind.via) && a.viaThrough) ||
    (decide (b.kind = TKind.via) && b.viaThrough) ||
    decide (max a.layLo b.layLo ≤ min a.layHi b.layHi)

/-- Modelled from the spec (§4.4): two items touch when they share an
endpoint and a layer (`m_TracksConnected`). -/
def touches (a b : Track) : Bool :=
  sharesLayer a b &&
    (decide (a.start = b.start) || decide (a.start = b.end_) ||
      decide (a.end_ = b.start) || decide (a.end_ = b.end_))

/-- `pad->HitTest( point )`, as position coincidence. -/
def padHitsAt (p : Pad) (pos : Int × Int) : Bool :=
  decide (p.pos = pos)

/-- Layer overlap between a pad's layer set and an item. -/
def padSharesLayer (p : Pad) (t : Track) : Bool :=
  match t.kind with
  | TKind.trace => decide (t.layer ∈ p.layers)
  | TKind.via =>
    if t.viaThrough then !p.layers.isEmpty
    else p.layers.any fun lay =>
      decide (min t.layer t.layer2 ≤ lay) && decide (lay ≤ max t.layer t.layer2)

/-- Modelled from the spec (§4.4): `m_PadsConnected` of an item — the pads
hit by one of its endpoints on a shared layer. -/
def padsConnected (pads : List Pad) (t : Track) : List Pad :=
  pads.filter fun p =>
    padSharesLayer p t && (padHitsAt p t.start || padHitsAt p t.end_)

/-- `TRACKS_CLEANER::buildTrackConnectionInfo` per item: clear and recompute
the `START_ON_PAD` / `END_ON_PAD` flags from pad hit tests at the
endpoints. -/
def buildConnTrack (pads : List Pad) (t : Track) : Track :=
  { t with
    startOnPad := (padsConnected pads t).any fun p => padHitsAt p t.start,
    endOnPad := (padsConnected pads t).any fun p => padHitsAt p t.end_ }

/-- `void TRACKS_CLEANER::buildTrackConnectionInfo()`. -/
def buildConn (b : Board) : Board :=
  { b with tracks := b.tracks.map (buildConnTrack b.pads) }

/-- Modelled from the spec: `TRACK::IsNull` (class_track.h, absent) — a
zero-length item; a via structurally has `start = end` (§3) and is never
null. -/
def Track.isNull (t : Track) : Bool :=
  decide (t.kind ≠ TKind.via) && decide (t.start = t.end_)

/-- `( pad->GetLayerSet() & all_cu ) == all_cu`: the pad covers every copper
layer of the board. -/
def coversAllCu (copperLayers : Nat) (p : Pad) : Bool :=
  (List.range copperLayers).all fun lay => decide (lay ∈ p.layers)

/-!
## Part 7: `delete_null_segments` and `removeBadTrackSegments`
(clean.cpp, lines 1689-1712 and 1383-1468)
-/

/-- `bool TRACKS_CLEANER::delete_null_segments()`: drop every null item;
second component is the modified flag. -/
def delete_null_segments : List Track → List Track × Bool
  | [] => ([], false)
  | t :: rest =>
    let r := delete_null_segments rest
    if t.isNull then (r.1, true) else (t :: r.1, r.2)

/-- The skip guard at the top of the flag sweep: thermal vias with a
netcode are never flagged (teardrop/corner types are absent here). -/
def rbSkip (t : Track) : Bool :=
  decide (t.kind = TKind.via) && decide (t.thermalCode ≠ 0) &&
    decide (t.netcode ≠ 0)

/-- One item's `FLAG0` in the forward sweep of `removeBadTrackSegments`:
a connected pad of a different net, or a touching *non-flagged* item of a
different net.  `prev` holds the already-processed items with their updated
flags; `next` the unprocessed ones, whose `FLAG0` is still the cleared
initial state (every run of this pass removes all items it flagged and no
other pass sets `FLAG0`, so items enter clear). -/
def rbFlag (pads : List Pad) (prev : List (Track × Bool)) (t : Track)
    (next : List Track) : Bool :=
  ((padsConnected pads t).any fun p => decide (p.netcode ≠ t.netcode)) ||
    (prev.any fun q =>
      touches t q.1 && decide (q.1.netcode ≠ t.netcode) && !q.2) ||
    (next.any fun u => touches t u && decide (u.netcode ≠ t.netcode))

/-- The forward flag sweep: returns each item paired with its `FLAG0`. -/
def rbSweep (pads : List Pad) (prev : List (Track × Bool)) :
    List Track → List (Track × Bool)
  | [] => []
  | t :: next =>
    let fl := !rbSkip t && rbFlag pads prev t next
    (t, fl) :: rbSweep pads (prev ++ [(t, fl)]) next

/-- `bool TRACKS_CLEANER::removeBadTrackSegments()`: the forward flag
sweep, then batch removal of every flagged item. -/
def removeBadTrackSegments (pads : List Pad) (l : List Track) :
    List Track × Bool :=
  let swept := rbSweep pads [] l
  ((swept.filter fun q => !q.2).map Prod.fst, swept.any fun q => q.2)

/-!
## Part 8: `clean_vias` (clean.cpp, lines 1471-1548)
-/

/-- `bool TRACKS_CLEANER::remove_duplicates_of_via( const VIA* aVia )`:
drop every later through-via at the same `GetStart()`;
the `GetFirstVia` chain simply skips non-via items. -/
def removeDupViasAt (pos : Int × Int) : List Track → List Track × Bool
  | [] => ([], false)
  | t :: rest =>
    let r := removeDupViasAt pos rest
    if t.kind = TKind.via ∧ t.viaThrough = true ∧ t.start = pos then (r.1, true)
    else (t :: r.1, r.2)

/-- The `clean_vias` iteration: fix `m_End` defects, remove duplicates of
through vias, then delete a through via whose connected pads cover all
copper layers (skipped for thermal vias).  The pad check reads
`m_PadsConnected`, computed by the connectivity build before the end fix,
hence from the item's original value. -/
def cleanViasAux (pads : List Pad) (copperLayers : Nat) :
    Nat → List Track → List Track × Bool
  | 0, l => (l, false)
  | _ + 1, [] => ([], false)
  | fuel + 1, t :: rest =>
    if t.kind = TKind.via then
      let t1 := if t.start = t.end_ then t else { t with end_ := t.start }
      if t1.viaThrough then
        let dup := removeDupViasAt t1.start rest
        if t1.thermalCode ≠ 0 ∧ (t1.netcode ≠ 0 ∨ t1.thermalZones ≠ 0) then
          let r := cleanViasAux pads copperLayers fuel dup.1
          (t1 :: r.1, dup.2 || r.2)
        else if (padsConnected pads t).any fun p => coversAllCu copperLayers p then
          let r := cleanViasAux pads copperLayers fuel dup.1
          (r.1, true)
        else
          let r := cleanViasAux pads copperLayers fuel dup.1
          (t1 :: r.1, dup.2 || r.2)
      else
        let r := cleanViasAux pads copperLayers fuel rest
        (t1 :: r.1, r.2)
    else
      let r := cleanViasAux pads copperLayers fuel rest
      (t :: r.1, r.2)

/-- `bool TRACKS_CLEANER::clean_vias()`. -/
def clean_vias (b : Board) : Board × Bool :=
  let r := cleanViasAux b.pads b.copperLayers b.tracks.length b.tracks
  ({ b with tracks := r.1 }, r.2)

/-!
## Part 9: `clean_segments` (clean.cpp, lines 1715-1876, 1919-1997)

`TRACK::GetTrack` (class_track.cpp, absent from this snapshot) is modelled
from the spec: it finds another, non-busy item of the same net with an
endpoint at the queried position (§4.5: "segment connected to the current
endpoint").  The C++ searches bidirectionally inside the net block of the
netcode-ordered list; on the same-net boards evaluated concretely below
this coincides with a whole-list search.  The merge loop's mutation of the
`m_Track` list is a zipper `(acc, seg, rest)`: `acc` the already visited
items, `seg` the current one, `rest` the tail.
-/

/-- Modelled from the spec: the same-net items among `others` having an
endpoint at `pos` (`TRACK::GetTrack` candidates). -/
def connectedAt (others : List Track) (net : Nat) (pos : Int × Int) :
    List Track :=
  others.filter fun u =>
    decide (u.netcode = net) &&
      (decide (u.start = pos) || decide (u.end_ = pos))

/-- `TRACK* TRACKS_CLEANER::mergeCollinearSegmentIfPossible( TRACK*
aTrackRef, TRACK* aCandidate, ENDPOINT_T aEndType )`: `none` when nothing
merges; otherwise the rewritten reference segment (the caller then deletes
the candidate).  The two "exactly the same track" cases delete the
candidate without touching the reference. -/
def mergeCollinearSegmentIfPossible (ref cand : Track) (ep : Endpoint) :
    Option Track :=
  if ¬ ref.width = cand.width ∨ ¬ ref.kind = TKind.trace ∨
      ¬ cand.kind = TKind.trace then none
  else if ref.start = cand.start ∧ ref.end_ = cand.end_ then some ref
  else if ref.start = cand.end_ ∧ ref.end_ = cand.start then some ref
  else if ¬ parallelism_test (ref.end_.1 - ref.start.1)
      (ref.end_.2 - ref.start.2) (cand.end_.1 - cand.start.1)
      (cand.end_.2 - cand.start.2) = true then none
  else
    match ep with
    | Endpoint.start =>
      if ref.startOnPad then none
      else if ref.start = cand.start then
        some { ref with start := cand.end_, startOnPad := cand.endOnPad }
      else
        some { ref with start := cand.start, startOnPad := cand.startOnPad }
    | Endpoint.end_ =>
      if ref.endOnPad then none
      else if ref.end_ = cand.start then
        some { ref with end_ := cand.end_, endOnPad := cand.endOnPad }
      else
        some { ref with end_ := cand.start, endOnPad := cand.startOnPad }

/-- State of the merge loop zipper. -/
structure MergeState where
  acc : List Track
  seg : Track
  rest : List Track
  merged : Bool
deriving DecidableEq

/-- One endpoint attempt of `merge_collinear_of_track`: nothing happens when
the segment is last in the list (`aSegment->Next()` is null); otherwise the
candidate must have the right width and type and be the only connected
segment at the endpoint (the `BUSY`-guarded second `GetTrack` finds none
besides it), and the merge rewrites `seg` and deletes the candidate from
whichever side of the zipper holds it. -/
def tryMergeAt (s : MergeState) (ep : Endpoint) : MergeState :=
  if s.rest.isEmpty then s
  else
    match connectedAt (s.acc ++ s.rest) s.seg.netcode (s.seg.endPoint ep) with
    | [cand] =>
      if s.seg.width = cand.width ∧ cand.kind = TKind.trace then
        match mergeCollinearSegmentIfPossible s.seg cand ep with
        | some seg' =>
          if s.acc.contains cand then
            { acc := s.acc.erase cand, seg := seg', rest := s.rest,
              merged := true }
          else
            { acc := s.acc, seg := seg', rest := s.rest.erase cand,
              merged := true }
        | none => s
      else s
    | _ => s

/-- The merge phase of `clean_segments`: visit each segment once, trying to
merge at its start and then at its (possibly already rewritten) end. -/
def mergeLoop : Nat → List Track → List Track → List Track × Bool
  | 0, acc, rest => (acc ++ rest, false)
  | _ + 1, acc, [] => (acc, false)
  | fuel + 1, acc, seg :: rest =>
    if seg.kind = TKind.trace then
      let s1 := tryMergeAt
        { acc := acc, seg := seg, rest := rest, merged := false }
        Endpoint.start
      let s2 := tryMergeAt { s1 with merged := false } Endpoint.end_
      let merged := s1.merged || s2.merged
      let r := mergeLoop fuel (s2.acc ++ [s2.seg]) s2.rest
      (r.1, merged || r.2)
    else
      let r := mergeLoop fuel (acc ++ [seg]) rest
      (r.1, r.2)

/-- `bool TRACKS_CLEANER::remove_duplicates_of_track( const TRACK* aTrack )`:
scan the items after the track inside its netcode block, dropping items of
the same type and layer whose endpoint set coincides (possibly swapped);
the scan breaks at the first different netcode. -/
def remove_duplicates_of_track (t : Track) : List Track → List Track × Bool
  | [] => ([], false)
  | u :: rest =>
    if ¬ t.netcode = u.netcode then (u :: rest, false)
    else if t.kind = u.kind ∧ t.layer = u.layer ∧
        ((t.start = u.start ∧ t.end_ = u.end_) ∨
          (t.start = u.end_ ∧ t.end_ = u.start)) then
      let r := remove_duplicates_of_track t rest
      (r.1, true)
    else
      let r := remove_duplicates_of_track t rest
      (u :: r.1, r.2)

/-- The duplicate-removal phase of `clean_segments` over every segment. -/
def dupLoop : Nat → List Track → List Track → List Track × Bool
  | 0, acc, rest => (acc ++ rest, false)
  | _ + 1, acc, [] => (acc, false)
  | fuel + 1, acc, t :: rest =>
    let r := remove_duplicates_of_track t rest
    let r2 := dupLoop fuel (acc ++ [t]) r.1
    (r2.1, r.2 || r2.2)

/-- `bool TRACKS_CLEANER::clean_segments()`: null segments, then duplicate
tracks, then collinear merging. -/
def clean_segments (l : List Track) : List Track × Bool :=
  let dn := delete_null_segments l
  let dup := dupLoop dn.1.length [] dn.1
  let mrg := mergeLoop dup.1.length [] dup.1
  (mrg.1, (dn.2 || dup.2) || mrg.2)

/-!
## Part 10: `deleteDanglingTracks` (clean.cpp, lines 1551-1685)
-/

/-- Modelled from the spec (§6): `BOARD::HitTestForAnyFilledArea` over the
zone's sample points — `zoneForTrackEndpoint` with the item's layer span
(a via gets its layer pair, a through via hits any layer). -/
def zoneForTrackEndpoint (zones : List Zone) (t : Track) (ep : Endpoint) :
    Bool :=
  zones.any fun z =>
    decide (z.netcode = t.netcode) && decide (t.endPoint ep ∈ z.points) &&
      ((decide (t.kind = TKind.via) && t.viaThrough) ||
        decide (max z.layerLo t.layLo ≤ min z.layerHi t.layHi))

/-- `bool TRACKS_CLEANER::testTrackEndpointDangling( TRACK* aTrack,
ENDPOINT_T aEndPoint )`: erase when the endpoint touches neither another
track nor a zone; when the supporting item is a via, erase when nothing
besides the (BUSY-marked) track continues past the via and no zone backs
the via. -/
def testTrackEndpointDangling (zones : List Zone) (others : List Track)
    (t : Track) (ep : Endpoint) : Bool :=
  match connectedAt others t.netcode (t.endPoint ep) with
  | [] => !zoneForTrackEndpoint zones t ep
  | other :: _ =>
    if other.kind = TKind.via then
      (connectedAt (others.erase other) other.netcode other.start).isEmpty &&
        !zoneForTrackEndpoint zones other ep
    else false

/-- One round of `deleteDanglingTracks` over the list (thermal vias with
zones are skipped). -/
def danglingRound (zones : List Zone) :
    Nat → List Track → List Track → List Track × Bool
  | 0, acc, rest => (acc ++ rest, false)
  | _ + 1, acc, [] => (acc, false)
  | fuel + 1, acc, t :: rest =>
    if t.kind = TKind.via ∧ t.thermalCode ≠ 0 ∧ t.thermalZones ≠ 0 then
      danglingRound zones fuel (acc ++ [t]) rest
    else
      let others := acc ++ rest
      let fe1 :=
        if !t.startOnPad then
          testTrackEndpointDangling zones others t Endpoint.start
        else false
      let fe :=
        if !fe1 && !t.endOnPad then
          testTrackEndpointDangling zones others t Endpoint.end_
        else fe1
      if fe then
        let r := danglingRound zones fuel acc rest
        (r.1, true)
      else danglingRound zones fuel (acc ++ [t]) rest

/-- `bool TRACKS_CLEANER::deleteDanglingTracks()`: iterate rounds while at
least one item was erased. -/
def deleteDanglingTracks (zones : List Zone) :
    Nat → List Track → List Track × Bool
  | 0, l => (l, false)
  | fuel + 1, l =>
    let r := danglingRound zones l.length [] l
    if r.2 then
      let r2 := deleteDanglingTracks zones fuel r.1
      (r2.1, true)
    else (r.1, false)

/-!
## Part 11: `TRACKS_CLEANER::CleanupBoard` (clean.cpp, lines 1274-1333)

Parameter names follow the function *definition* at line 1274
(`aRemoveMisConnected` first); the class declaration at line 1159 permutes
the names, and the call sites follow the definition.  The TrackItems
teardrop / rounded-corner hooks are identities on boards without those node
types and are omitted; `Compile_Ratsnest` and the commit log are
presentation collaborators outside the core.
-/

/-- `bool TRACKS_CLEANER::CleanupBoard( bool aRemoveMisConnected, bool
aCleanVias, bool aMergeSegments, bool aDeleteUnconnected )`: the pipeline,
returning the new board and whether anything was modified. -/
def CleanupBoard (b : Board) (aRemoveMisConnected aCleanVias aMergeSegments
    aDeleteUnconnected : Bool) : Board × Bool :=
  let b0 := buildConn b
  let s1 := if aCleanVias then clean_vias b0 else (b0, false)
  let s2 :=
    if aMergeSegments then clean_segments s1.1.tracks
    else if aRemoveMisConnected then delete_null_segments s1.1.tracks
    else (s1.1.tracks, false)
  let b2 : Board := { s1.1 with tracks := s2.1 }
  let s3 :=
    if aRemoveMisConnected then
      let r := removeBadTrackSegments b2.pads b2.tracks
      if r.2 then (buildConn { b2 with tracks := r.1 }, true)
      else ({ b2 with tracks := r.1 }, false)
    else (b2, false)
  let modified := (s1.2 || s2.2) || s3.2
  let s4 :=
    if aDeleteUnconnected then
      let b3 := if modified then buildConn s3.1 else s3.1
      let r := deleteDanglingTracks b3.zones (b3.tracks.length + 1) b3.tracks
      if r.2 then
        let t5 := if aMergeSegments then (clean_segments r.1).1 else r.1
        (({ b3 with tracks := t5 } : Board), true)
      else ({ b3 with tracks := r.1 }, false)
    else (s3.1, false)
  (s4.1, modified || s4.2)

/-!
## Part 12: claims about `clean_vias` (C9, C7)
-/

theorem removeDupViasAt_length (pos : Int × Int) :
    ∀ l : List Track, (removeDupViasAt pos l).1.length ≤ l.length := by
  intro l
  induction l with
  | nil => simp [removeDupViasAt]
  | cons t rest ih =>
    simp only [removeDupViasAt]
    split
    · simpa using Nat.le_succ_of_le ih
    · simpa using ih

theorem removeDupViasAt_subset {pos : Int × Int} :
    ∀ {l : List Track} {t : Track}, t ∈ (removeDupViasAt pos l).1 → t ∈ l := by
  intro l
  induction l with
  | nil => intro t h; simp [removeDupViasAt] at h
  | cons u rest ih =>
    intro t h
    simp only [removeDupViasAt] at h
    split at h
    · exact List.mem_cons_of_mem u (ih h)
    · rcases List.mem_cons.mp h with rfl | hmem
      · exact List.mem_cons_self _ _
      · exact List.mem_cons_of_mem u (ih hmem)

theorem fix_end_self {t : Track} (h : t.start = t.end_) :
    { t with end_ := t.start } = t := by
  cases t
  simp_all

/-- C9: every via surviving `clean_vias` satisfies the structural invariant
`end = start`, and is an input via corrected in place by the defensive
`via->SetEnd( via->GetStart() )` fix (all its other fields are kept); the
pass continues over the rest of the list instead of aborting. -/
theorem clean_vias_corrects_malformed (b : Board) (t : Track)
    (ht : t ∈ (clean_vias b).1.tracks) (hv : t.kind = TKind.via) :
    t.end_ = t.start ∧
      ∃ t0 ∈ b.tracks, t0.kind = TKind.via ∧
        t = { t0 with end_ := t0.start } := by
  have main : ∀ fuel l, l.length ≤ fuel →
      ∀ u ∈ (cleanViasAux b.pads b.copperLayers fuel l).1, u.kind = TKind.via →
        u.end_ = u.start ∧
          ∃ t0 ∈ l, t0.kind = TKind.via ∧ u = { t0 with end_ := t0.start } := by
    intro fuel
    induction fuel with
    | zero =>
      intro l hl u hu hk
      have : l = [] := List.eq_nil_of_length_eq_zero (Nat.le_zero.mp hl)
      subst this
      simp [cleanViasAux] at hu
    | succ fuel ih =>
      intro l hl u hu hk
      cases l with
      | nil => simp [cleanViasAux] at hu
      | cons t0 rest =>
        have hrest : rest.length ≤ fuel := by
          simpa using Nat.succ_le_succ_iff.mp hl
        simp only [cleanViasAux] at hu
        by_cases hvia : t0.kind = TKind.via
        · rw [if_pos hvia] at hu
          have hfix : (if t0.start = t0.end_ then t0
              else { t0 with end_ := t0.start }) = { t0 with end_ := t0.start } := by
            split
            · exact (fix_end_self (by assumption)).symm
            · rfl
          rw [hfix] at hu
          by_cases hth : ({ t0 with end_ := t0.start } : Track).viaThrough = true
          · rw [if_pos hth] at hu
            have hdup : (removeDupViasAt ({ t0 with end_ := t0.start } : Track).start
                rest).1.length ≤ fuel :=
              le_trans (removeDupViasAt_length _ _) hrest
            split at hu
            · rcases List.mem_cons.mp hu with rfl | hmem
              · exact ⟨rfl, t0, List.mem_cons_self _ _, hvia, rfl⟩
              · obtain ⟨he, t1, ht1, hk1, hu1⟩ := ih _ hdup u hmem hk
                exact ⟨he, t1, List.mem_cons_of_mem t0 (removeDupViasAt_subset ht1),
                  hk1, hu1⟩
            · split at hu
              · obtain ⟨he, t1, ht1, hk1, hu1⟩ := ih _ hdup u hu hk
                exact ⟨he, t1, List.mem_cons_of_mem t0 (removeDupViasAt_subset ht1),
                  hk1, hu1⟩
              · rcases List.mem_cons.mp hu with rfl | hmem
                · exact ⟨rfl, t0, List.mem_cons_self _ _, hvia, rfl⟩
                · obtain ⟨he, t1, ht1, hk1, hu1⟩ := ih _ hdup u hmem hk
                  exact ⟨he, t1, List.mem_cons_of_mem t0 (removeDupViasAt_subset ht1),
                    hk1, hu1⟩
          · rw [if_neg hth] at hu
            rcases List.mem_cons.mp hu with rfl | hmem
            · exact ⟨rfl, t0, List.mem_cons_self _ _, hvia, rfl⟩
            · obtain ⟨he, t1, ht1, hk1, hu1⟩ := ih rest hrest u hmem hk
              exact ⟨he, t1, List.mem_cons_of_mem t0 ht1, hk1, hu1⟩
        · rw [if_neg hvia] at hu
          rcases List.mem_cons.mp hu with rfl | hmem
          · exact absurd hk hvia
          · obtain ⟨he, t1, ht1, hk1, hu1⟩ := ih rest hrest u hmem hk
            exact ⟨he, t1, List.mem_cons_of_mem t0 ht1, hk1, hu1⟩
  exact main b.tracks.length b.tracks (le_refl _) t ht hv

/-- Board with a single malformed via (`start = (0,0)`, `end = (5,5)`). -/
def C9board : Board :=
  { tracks := [{ mkVia 1 (0, 0) with end_ := (5, 5) }], pads := [], zones := [],
    copperLayers := 2 }

/-- Witness for C9: running `clean_vias` on the board with the single
malformed via yields the corrected via, whose end equals its start. -/
theorem clean_vias_corrects_malformed_witness :
    (mkVia 1 (0, 0)).end_ = (mkVia 1 (0, 0)).start ∧
      ∃ t0 ∈ C9board.tracks, t0.kind = TKind.via ∧
        mkVia 1 (0, 0) = { t0 with end_ := t0.start } :=
  clean_vias_corrects_malformed C9board (mkVia 1 (0, 0)) (by decide) (by decide)

/-- A through via sitting at point `P` (the items counted by C7). -/
def throughViaAt (P : Int × Int) (t : Track) : Bool :=
  decide (t.kind = TKind.via) && t.viaThrough && decide (t.start = P)

theorem mem_padsConnected {pads : List Pad} {t : Track} {p : Pad}
    (h : p ∈ padsConnected pads t) :
    p ∈ pads ∧ (p.pos = t.start ∨ p.pos = t.end_) := by
  have h' := List.mem_filter.mp h
  refine ⟨h'.1, ?_⟩
  have := h'.2
  simp only [Bool.and_eq_true, Bool.or_eq_true, padHitsAt, decide_eq_true_eq] at this
  exact this.2

theorem removeDupViasAt_countP_self (P : Int × Int) :
    ∀ l : List Track, (removeDupViasAt P l).1.countP (throughViaAt P) = 0 := by
  intro l
  induction l with
  | nil => simp [removeDupViasAt]
  | cons t rest ih =>
    simp only [removeDupViasAt]
    split
    · simpa using ih
    · rename_i hcond
      have ht : throughViaAt P t = false := by
        simp only [throughViaAt]
        simp only [not_and] at hcond
        by_cases h1 : t.kind = TKind.via
        · by_cases h2 : t.viaThrough = true
          · simp [h1, h2, hcond h1 h2]
          · simp [h2]
        · simp [h1]
      simp [List.countP_cons, ht, ih]

theorem removeDupViasAt_countP_other {P pos : Int × Int} (hne : pos ≠ P) :
    ∀ l : List Track, (removeDupViasAt pos l).1.countP (throughViaAt P) =
      l.countP (throughViaAt P) := by
  intro l
  induction l with
  | nil => simp [removeDupViasAt]
  | cons t rest ih =>
    simp only [removeDupViasAt]
    split
    · rename_i hcond
      have ht : throughViaAt P t = false := by
        simp only [throughViaAt]
        have : t.start = pos := hcond.2.2
        simp [this, hne]
      simp [List.countP_cons, ht, ih]
    · simp [List.countP_cons, ih]

theorem cleanViasAux_throughCount (pads : List Pad) (cl : Nat) (P : Int × Int)
    (hpad : ∀ p ∈ pads, p.pos = P → coversAllCu cl p = false) :
    ∀ fuel l, l.length ≤ fuel →
      (∀ t ∈ l, throughViaAt P t = true → t.end_ = t.start) →
      ((cleanViasAux pads cl fuel l).1.countP (throughViaAt P)) =
        if l.countP (throughViaAt P) = 0 then 0 else 1 := by
  intro fuel
  induction fuel with
  | zero =>
    intro l hl _
    have : l = [] := List.eq_nil_of_length_eq_zero (Nat.le_zero.mp hl)
    subst this
    simp [cleanViasAux]
  | succ fuel ih =>
    intro l hl hwf
    cases l with
    | nil => simp [cleanViasAux]
    | cons t0 rest =>
      have hrest : rest.length ≤ fuel := by
        simpa using Nat.succ_le_succ_iff.mp hl
      have hwfrest : ∀ t ∈ rest, throughViaAt P t = true → t.end_ = t.start :=
        fun t htm => hwf t (List.mem_cons_of_mem t0 htm)
      simp only [cleanViasAux]
      by_cases hvia : t0.kind = TKind.via
      · rw [if_pos hvia]
        have hfix : (if t0.start = t0.end_ then t0
            else { t0 with end_ := t0.start }) = { t0 with end_ := t0.start } := by
          split
          · exact (fix_end_self (by assumption)).symm
          · rfl
        rw [hfix]
        have hPfix : throughViaAt P ({ t0 with end_ := t0.start } : Track) =
            throughViaAt P t0 := rfl
        by_cases hth : t0.viaThrough = true
        · rw [if_pos (show ({ t0 with end_ := t0.start } : Track).viaThrough =
            true from hth)]
          have hlen : (removeDupViasAt ({ t0 with end_ := t0.start } : Track).start
              rest).1.length ≤ fuel :=
            le_trans (removeDupViasAt_length _ _) hrest
          have hwfdup : ∀ t ∈ (removeDupViasAt
              ({ t0 with end_ := t0.start } : Track).start rest).1,
              throughViaAt P t = true → t.end_ = t.start :=
            fun t htm => hwfrest t (removeDupViasAt_subset htm)
          have hihdup := ih _ hlen hwfdup
          by_cases hP : throughViaAt P t0 = true
          · -- head is a through via at P: duplicates at P go away
            have hstart : t0.start = P := by
              simp only [throughViaAt, Bool.and_eq_true, decide_eq_true_eq] at hP
              exact hP.2
            have hend : t0.end_ = t0.start := hwf t0 (List.mem_cons_self _ _) hP
            have hdupz : ((removeDupViasAt
                ({ t0 with end_ := t0.start } : Track).start rest).1.countP
                  (throughViaAt P)) = 0 := by
              show ((removeDupViasAt t0.start rest).1.countP (throughViaAt P)) = 0
              rw [hstart]
              exact removeDupViasAt_countP_self P rest
            have hihdup0 : ((cleanViasAux pads cl fuel (removeDupViasAt
                ({ t0 with end_ := t0.start } : Track).start rest).1).1.countP
                  (throughViaAt P)) = 0 := by
              rw [hihdup, hdupz]
              simp
            have hpadcheck : ((padsConnected pads t0).any fun p =>
                coversAllCu cl p) = false := by
              rw [List.any_eq_false]
              intro p hp
              obtain ⟨hpin, hpos⟩ := mem_padsConnected hp
              have hpp : p.pos = P := by
                rcases hpos with h | h
                · rw [h, hstart]
                · rw [h, hend, hstart]
              simp [hpad p hpin hpp]
            split
            · simp [List.countP_cons, hihdup0, hPfix, hP]
            · rw [hpadcheck]
              simp [List.countP_cons, hihdup0, hPfix, hP]
          · -- head is a through via at some other point
            have hP' : throughViaAt P t0 = false := by simpa using hP
            have hstartne : t0.start ≠ P := by
              intro hcontra
              apply hP
              simp [throughViaAt, hvia, hth, hcontra]
            have hdup : ((removeDupViasAt
                ({ t0 with end_ := t0.start } : Track).start rest).1.countP
                  (throughViaAt P)) = rest.countP (throughViaAt P) := by
              show ((removeDupViasAt t0.start rest).1.countP (throughViaAt P)) = _
              exact removeDupViasAt_countP_other hstartne rest
            rw [hdup] at hihdup
            split
            · simp [List.countP_cons, hihdup, hPfix, hP']
            · split
              · simp [List.countP_cons, hihdup, hP']
              · simp [List.countP_cons, hihdup, hPfix, hP']
        · have hP' : throughViaAt P t0 = false := by
            simp only [throughViaAt]
            simp [hth]
          rw [if_neg (show ¬ ({ t0 with end_ := t0.start } : Track).viaThrough =
            true from hth)]
          simp [List.countP_cons, ih rest hrest hwfrest, hPfix, hP']
      · rw [if_neg hvia]
        have hP' : throughViaAt P t0 = false := by
          simp [throughViaAt, hvia]
        simp [List.countP_cons, ih rest hrest hwfrest, hP']

theorem countP_throughViaAt_buildConn (pads : List Pad) (P : Int × Int) :
    ∀ l : List Track,
      (l.map (buildConnTrack pads)).countP (throughViaAt P) =
        l.countP (throughViaAt P) := by
  intro l
  induction l with
  | nil => rfl
  | cons t rest ih =>
    show ((buildConnTrack pads t :: rest.map (buildConnTrack pads)).countP
      (throughViaAt P)) = _
    rw [List.countP_cons, List.countP_cons, ih]
    rfl

/-- C7: a cleanup run with via cleaning enabled (the other three options
off) leaves exactly one through-via at a point carrying exactly two
same-net through-vias, provided no pad at that point covers every copper
layer (such a pad would make the surviving via redundant too). -/
theorem CleanupBoard_duplicate_via (b : Board) (P : Int × Int) (n : Nat)
    (hcount : b.tracks.countP (throughViaAt P) = 2)
    (hnet : ∀ t ∈ b.tracks, throughViaAt P t = true → t.netcode = n)
    (hwf : ∀ t ∈ b.tracks, throughViaAt P t = true → t.end_ = t.start)
    (hpad : ∀ p ∈ b.pads, p.pos = P → coversAllCu b.copperLayers p = false) :
    (CleanupBoard b false true false false).1.tracks.countP
      (throughViaAt P) = 1 := by
  have hwfm : ∀ t ∈ (buildConn b).tracks, throughViaAt P t = true →
      t.end_ = t.start := by
    intro t htm hPt
    obtain ⟨x, hx, rfl⟩ := List.mem_map.mp htm
    exact hwf x hx hPt
  have hmain := cleanViasAux_throughCount b.pads b.copperLayers P hpad
    (buildConn b).tracks.length (buildConn b).tracks (le_refl _) hwfm
  have hred : (CleanupBoard b false true false false).1 =
      (clean_vias (buildConn b)).1 := rfl
  rw [hred]
  show ((cleanViasAux b.pads b.copperLayers (buildConn b).tracks.length
      (buildConn b).tracks).1.countP (throughViaAt P)) = 1
  rw [hmain]
  have hc2 : (buildConn b).tracks.countP (throughViaAt P) = 2 := by
    show (b.tracks.map (buildConnTrack b.pads)).countP (throughViaAt P) = 2
    rw [countP_throughViaAt_buildConn, hcount]
  rw [hc2]
  simp

/-- Board with a trace and two identical same-net through-vias at `(5,5)`. -/
def C7board : Board :=
  { tracks := [mkTrace 3 (0, 0) (5, 5), mkVia 3 (5, 5), mkVia 3 (5, 5)],
    pads := [], zones := [], copperLayers := 2 }

/-- Witness for C7 on the concrete two-via board. -/
theorem CleanupBoard_duplicate_via_witness :
    (CleanupBoard C7board false true false false).1.tracks.countP
      (throughViaAt (5, 5)) = 1 :=
  CleanupBoard_duplicate_via C7board (5, 5) 3 (by decide) (by decide)
    (by decide) (by decide)

/-!
## Part 13: claims about `removeBadTrackSegments` (C6, C5) and the
idempotence of the mis-connect pipeline (C1)
-/

theorem rbSweep_map_fst (pads : List Pad) :
    ∀ l prev, (rbSweep pads prev l).map Prod.fst = l := by
  intro l
  induction l with
  | nil => intro prev; rfl
  | cons t next ih =>
    intro prev
    show ((t, !rbSkip t && rbFlag pads prev t next) ::
      rbSweep pads (prev ++ [(t, !rbSkip t && rbFlag pads prev t next)])
        next).map Prod.fst = t :: next
    rw [List.map_cons, ih]

theorem rbSweep_get?_flag (pads : List Pad) :
    ∀ l prev k t fl, (rbSweep pads prev l).get? k = some (t, fl) →
      fl = (!rbSkip t &&
        rbFlag pads (prev ++ (rbSweep pads prev l).take k) t
          (l.drop (k + 1))) := by
  intro l
  induction l with
  | nil =>
    intro prev k t fl h
    simp [rbSweep] at h
  | cons t0 next ih =>
    intro prev k t fl h
    cases k with
    | zero =>
      have h' : ((t0, !rbSkip t0 && rbFlag pads prev t0 next) ::
          rbSweep pads (prev ++ [(t0, !rbSkip t0 && rbFlag pads prev t0 next)])
            next).get? 0 = some (t, fl) := h
      rw [List.get?_cons_zero] at h'
      cases h'
      simp [rbSweep]
    | succ k =>
      have h' : (rbSweep pads
          (prev ++ [(t0, !rbSkip t0 && rbFlag pads prev t0 next)])
            next).get? k = some (t, fl) := h
      have := ih (prev ++ [(t0, !rbSkip t0 && rbFlag pads prev t0 next)]) k t fl h'
      rw [this]
      show _ = (!rbSkip t && rbFlag pads (prev ++
        ((t0, !rbSkip t0 && rbFlag pads prev t0 next) ::
          rbSweep pads (prev ++ [(t0, !rbSkip t0 && rbFlag pads prev t0 next)])
            next).take (k + 1)) t ((t0 :: next).drop (k + 2)))
      rw [List.take_succ_cons, List.drop_succ_cons]
      rw [show prev ++ ((t0, !rbSkip t0 && rbFlag pads prev t0 next) ::
        (rbSweep pads (prev ++ [(t0, !rbSkip t0 && rbFlag pads prev t0 next)])
          next).take k) = (prev ++ [(t0, !rbSkip t0 && rbFlag pads prev t0 next)])
            ++ (rbSweep pads
              (prev ++ [(t0, !rbSkip t0 && rbFlag pads prev t0 next)])
                next).take k by simp]

/-- C6 (counterexample): the claim reads the sweep as "an already-flagged
item is treated as different-net-contaminating for anything touching it".
On the board with a net-2 pad at `(0,0)`, a net-1 trace `Z` from `(0,0)` to
`(10,0)` and a net-2 trace `W` from `(10,0)` to `(20,0)`: the sweep flags
`Z` (pad of a different net) and then skips the already-flagged `Z` when
examining `W` (`!tested->GetState( FLAG0 )` fails), so `W` — which touches
the flagged `Z` and has a different netcode — is *not* flagged and
survives, contrary to the claim. -/
theorem removeBad_flagged_not_contagious_cex :
    removeBadTrackSegments [⟨(0, 0), 2, [0]⟩]
        [mkTrace 1 (0, 0) (10, 0), mkTrace 2 (10, 0) (20, 0)] =
      ([mkTrace 2 (10, 0) (20, 0)], true) ∧
      touches (mkTrace 2 (10, 0) (20, 0)) (mkTrace 1 (0, 0) (10, 0)) = true ∧
      ¬ (mkTrace 2 (10, 0) (20, 0)).netcode =
          (mkTrace 1 (0, 0) (10, 0)).netcode := by
  decide

/-- C6 (amended): positional characterization of the single forward sweep.
The item at position `k` is flagged iff it is not guard-skipped and either
one of its connected pads has a different netcode, or some *earlier* item
that touches it has a different netcode and ended the sweep *unflagged*,
or some *later* item (whose `FLAG0` is still the cleared initial state)
touches it with a different netcode.  In particular an already-flagged
earlier item is excluded as a contamination source — the opposite of the
claim's reading. -/
theorem removeBad_flag_characterization (pads : List Pad) (l : List Track)
    (k : Nat) (t : Track) (fl : Bool)
    (h : (rbSweep pads [] l).get? k = some (t, fl)) :
    fl = (!rbSkip t &&
      (((padsConnected pads t).any fun p => decide (p.netcode ≠ t.netcode)) ||
        (((rbSweep pads [] l).take k).any fun q =>
          touches t q.1 && decide (q.1.netcode ≠ t.netcode) && !q.2) ||
        ((l.drop (k + 1)).any fun u =>
          touches t u && decide (u.netcode ≠ t.netcode)))) := by
  have := rbSweep_get?_flag pads l [] k t fl h
  rw [this]
  rfl

/-- Witness for the amended C6 theorem: on the counterexample board, the
entry at position 1 (the net-2 trace) evaluates to unflagged. -/
theorem removeBad_flag_characterization_witness :
    false = (!rbSkip (mkTrace 2 (10, 0) (20, 0)) &&
      (((padsConnected [⟨(0, 0), 2, [0]⟩] (mkTrace 2 (10, 0) (20, 0))).any
          fun p => decide (p.netcode ≠ (mkTrace 2 (10, 0) (20, 0)).netcode)) ||
        (((rbSweep [⟨(0, 0), 2, [0]⟩] []
            [mkTrace 1 (0, 0) (10, 0), mkTrace 2 (10, 0) (20, 0)]).take 1).any
          fun q => touches (mkTrace 2 (10, 0) (20, 0)) q.1 &&
            decide (q.1.netcode ≠ (mkTrace 2 (10, 0) (20, 0)).netcode) && !q.2) ||
        (([mkTrace 1 (0, 0) (10, 0), mkTrace 2 (10, 0) (20, 0)].drop 2).any
          fun u => touches (mkTrace 2 (10, 0) (20, 0)) u &&
            decide (u.netcode ≠ (mkTrace 2 (10, 0) (20, 0)).netcode)))) :=
  removeBad_flag_characterization [⟨(0, 0), 2, [0]⟩]
    [mkTrace 1 (0, 0) (10, 0), mkTrace 2 (10, 0) (20, 0)] 1
    (mkTrace 2 (10, 0) (20, 0)) false (by decide)

theorem rbSweep_unflagged_spec (pads : List Pad) :
    ∀ l prev t, (t, false) ∈ rbSweep pads prev l → rbSkip t = false →
      ((padsConnected pads t).any fun p =>
        decide (p.netcode ≠ t.netcode)) = false ∧
      ∀ q ∈ prev ++ rbSweep pads prev l,
        ¬(touches t q.1 = true ∧ ¬ q.1.netcode = t.netcode ∧ q.2 = false) := by
  intro l
  induction l with
  | nil =>
    intro prev t h
    simp [rbSweep] at h
  | cons x next ih =>
    intro prev t h hskip
    have hx : rbSweep pads prev (x :: next) =
        (x, !rbSkip x && rbFlag pads prev x next) ::
          rbSweep pads
            (prev ++ [(x, !rbSkip x && rbFlag pads prev x next)]) next := rfl
    rw [hx] at h ⊢
    rcases List.mem_cons.mp h with heq | hmem
    · have hxt : x = t := (congrArg Prod.fst heq).symm
      subst hxt
      have hfl : (!rbSkip x && rbFlag pads prev x next) = false :=
        (congrArg Prod.snd heq).symm
      rw [hskip] at hfl
      have hflag : rbFlag pads prev x next = false := by simpa using hfl
      simp only [rbFlag, Bool.or_eq_false_iff] at hflag
      obtain ⟨⟨hpad, hprevany⟩, hnextany⟩ := hflag
      refine ⟨hpad, ?_⟩
      intro q hq hcontra
      obtain ⟨htq, hnq, hflq⟩ := hcontra
      rcases List.mem_append.mp hq with hqprev | hqout
      · have hne := List.any_eq_false.mp hprevany q hqprev
        rw [htq, hflq] at hne
        simp only [Bool.true_and, Bool.not_false, Bool.and_true] at hne
        exact hne (decide_eq_true hnq)
      · rcases List.mem_cons.mp hqout with rfl | hqtail
        · exact hnq rfl
        · have hq1 : q.1 ∈ next := by
            have := List.mem_map_of_mem Prod.fst hqtail
            rwa [rbSweep_map_fst] at this
          have hne := List.any_eq_false.mp hnextany q.1 hq1
          rw [htq] at hne
          simp only [Bool.true_and] at hne
          exact hne (decide_eq_true hnq)
    · have := ih (prev ++ [(x, !rbSkip x && rbFlag pads prev x next)]) t hmem hskip
      refine ⟨this.1, ?_⟩
      intro q hq
      apply this.2 q
      rw [List.append_cons] at hq
      exact hq

theorem rbSweep_all_false (pads : List Pad) (L : List Track)
    (hcalm : ∀ t ∈ L, rbSkip t = false →
      ((padsConnected pads t).any fun p =>
        decide (p.netcode ≠ t.netcode)) = false ∧
      ∀ u ∈ L, ¬(touches t u = true ∧ ¬ u.netcode = t.netcode)) :
    ∀ l prev, (∀ u ∈ l, u ∈ L) → (∀ q ∈ prev, q.1 ∈ L) →
      ∀ q ∈ rbSweep pads prev l, q.2 = false := by
  intro l
  induction l with
  | nil =>
    intro prev _ _ q hq
    simp [rbSweep] at hq
  | cons x next ih =>
    intro prev hl hprev q hq
    have hxL : x ∈ L := hl x (List.mem_cons_self _ _)
    have hflag : (!rbSkip x && rbFlag pads prev x next) = false := by
      by_cases hskip : rbSkip x = true
      · simp [hskip]
      · have hskip' : rbSkip x = false := by simpa using hskip
        obtain ⟨hpad, htouch⟩ := hcalm x hxL hskip'
        have hprevany : (prev.any fun q =>
            touches x q.1 && decide (q.1.netcode ≠ x.netcode) && !q.2) = false := by
          rw [List.any_eq_false]
          intro q hqp
          by_cases htx : touches x q.1 = true
          · have hne : q.1.netcode = x.netcode := by
              by_contra hneq
              exact htouch q.1 (hprev q hqp) ⟨htx, hneq⟩
            simp [htx, hne]
          · have : touches x q.1 = false := by simpa using htx
            simp [this]
        have hnextany : (next.any fun u =>
            touches x u && decide (u.netcode ≠ x.netcode)) = false := by
          rw [List.any_eq_false]
          intro u hu
          by_cases htx : touches x u = true
          · have hne : u.netcode = x.netcode := by
              by_contra hneq
              exact htouch u (hl u (List.mem_cons_of_mem x hu)) ⟨htx, hneq⟩
            simp [htx, hne]
          · have : touches x u = false := by simpa using htx
            simp [this]
        have hrbf : rbFlag pads prev x next = false := by
          unfold rbFlag
          rw [hpad, hprevany, hnextany]
          rfl
        rw [hrbf, Bool.and_false]
    have hx : rbSweep pads prev (x :: next) =
        (x, !rbSkip x && rbFlag pads prev x next) ::
          rbSweep pads
            (prev ++ [(x, !rbSkip x && rbFlag pads prev x next)]) next := rfl
    rw [hx] at hq
    rcases List.mem_cons.mp hq with rfl | hqtail
    · exact hflag
    · refine ih (prev ++ [(x, !rbSkip x && rbFlag pads prev x next)])
        (fun u hu => hl u (List.mem_cons_of_mem x hu)) ?_ q hqtail
      intro q hqp
      rcases List.mem_append.mp hqp with h1 | h2
      · exact hprev q h1
      · rcases List.mem_cons.mp h2 with rfl | h3
        · exact hxL
        · simp at h3

theorem removeBad_mem_unflagged {pads : List Pad} {l : List Track} {t : Track}
    (h : t ∈ (removeBadTrackSegments pads l).1) :
    (t, false) ∈ rbSweep pads [] l := by
  obtain ⟨q, hq, hfst⟩ := List.mem_map.mp h
  obtain ⟨t0, fl⟩ := q
  have hq' := List.mem_filter.mp hq
  have hfl : fl = false := by simpa using hq'.2
  cases hfl
  cases hfst
  exact hq'.1

theorem removeBad_sub {pads : List Pad} {l : List Track} {t : Track}
    (h : t ∈ (removeBadTrackSegments pads l).1) : t ∈ l := by
  have h1 := removeBad_mem_unflagged h
  have := List.mem_map_of_mem Prod.fst h1
  rwa [rbSweep_map_fst] at this

theorem removeBad_survivors_calm (pads : List Pad) (L : List Track) :
    ∀ t ∈ (removeBadTrackSegments pads L).1, rbSkip t = false →
      ((padsConnected pads t).any fun p =>
        decide (p.netcode ≠ t.netcode)) = false ∧
      ∀ u ∈ (removeBadTrackSegments pads L).1,
        ¬(touches t u = true ∧ ¬ u.netcode = t.netcode) := by
  intro t ht hskip
  have h1 := rbSweep_unflagged_spec pads L [] t (removeBad_mem_unflagged ht) hskip
  refine ⟨h1.1, ?_⟩
  intro u hu hcontra
  have hu' : (u, false) ∈ rbSweep pads [] L := removeBad_mem_unflagged hu
  exact h1.2 (u, false) (by simpa using hu') ⟨hcontra.1, hcontra.2, rfl⟩

theorem removeBad_idem (pads : List Pad) (L : List Track) :
    removeBadTrackSegments pads (removeBadTrackSegments pads L).1 =
      ((removeBadTrackSegments pads L).1, false) := by
  have hflags : ∀ q ∈ rbSweep pads [] (removeBadTrackSegments pads L).1,
      q.2 = false := by
    refine rbSweep_all_false pads (removeBadTrackSegments pads L).1 ?_
      (removeBadTrackSegments pads L).1 [] (fun u hu => hu) (by simp)
    intro t htm hsk
    exact removeBad_survivors_calm pads L t htm hsk
  have hfilter : ((rbSweep pads [] (removeBadTrackSegments pads L).1).filter
      fun q => !q.2) = rbSweep pads [] (removeBadTrackSegments pads L).1 := by
    rw [List.filter_eq_self]
    intro q hq
    rw [hflags q hq]
    rfl
  have hany : ((rbSweep pads [] (removeBadTrackSegments pads L).1).any
      fun q => q.2) = false := by
    rw [List.any_eq_false]
    intro q hq
    rw [hflags q hq]
    simp
  show (((rbSweep pads [] (removeBadTrackSegments pads L).1).filter
      fun q => !q.2).map Prod.fst,
    (rbSweep pads [] (removeBadTrackSegments pads L).1).any fun q => q.2) = _
  rw [hfilter, hany, rbSweep_map_fst]

theorem buildConnTrack_idem (pads : List Pad) (t : Track) :
    buildConnTrack pads (buildConnTrack pads t) = buildConnTrack pads t := rfl

theorem padsConnected_buildConnTrack (pads : List Pad) (t : Track) :
    padsConnected pads (buildConnTrack pads t) = padsConnected pads t := rfl

theorem netcode_buildConnTrack (pads : List Pad) (t : Track) :
    (buildConnTrack pads t).netcode = t.netcode := rfl

theorem delete_null_nonull : ∀ (l : List Track),
    ∀ t ∈ (delete_null_segments l).1, t.isNull = false := by
  intro l
  induction l with
  | nil => simp [delete_null_segments]
  | cons x rest ih =>
    intro t ht
    simp only [delete_null_segments] at ht
    by_cases hx : x.isNull = true
    · rw [if_pos hx] at ht
      exact ih t ht
    · rw [if_neg hx] at ht
      rcases List.mem_cons.mp ht with rfl | hmem
      · simpa using hx
      · exact ih t hmem

theorem delete_null_sub : ∀ (l : List Track) (t : Track),
    t ∈ (delete_null_segments l).1 → t ∈ l := by
  intro l
  induction l with
  | nil => simp [delete_null_segments]
  | cons x rest ih =>
    intro t ht
    simp only [delete_null_segments] at ht
    by_cases hx : x.isNull = true
    · rw [if_pos hx] at ht
      exact List.mem_cons_of_mem x (ih t ht)
    · rw [if_neg hx] at ht
      rcases List.mem_cons.mp ht with rfl | hmem
      · exact List.mem_cons_self _ _
      · exact List.mem_cons_of_mem x (ih t hmem)

theorem delete_null_of_nonull : ∀ (l : List Track),
    (∀ t ∈ l, t.isNull = false) → delete_null_segments l = (l, false) := by
  intro l
  induction l with
  | nil => intro _; rfl
  | cons x rest ih =>
    intro h
    have hx : x.isNull = false := h x (List.mem_cons_self _ _)
    have hrest := ih fun t htm => h t (List.mem_cons_of_mem x htm)
    simp only [delete_null_segments]
    rw [if_neg (by simp [hx]), hrest]

theorem map_bct_of_images {pads : List Pad} :
    ∀ {S : List Track}, (∀ s ∈ S, ∃ x, s = buildConnTrack pads x) →
      S.map (buildConnTrack pads) = S := by
  intro S
  induction S with
  | nil => intro _; rfl
  | cons s rest ih =>
    intro h
    obtain ⟨x, hx⟩ := h s (List.mem_cons_self _ _)
    have hs : buildConnTrack pads s = s := by
      rw [hx, buildConnTrack_idem]
    show buildConnTrack pads s :: rest.map (buildConnTrack pads) = s :: rest
    rw [hs, ih fun u hu => h u (List.mem_cons_of_mem s hu)]

/-- The mis-connect-only pipeline written out flat; equal to
`CleanupBoard b true false false false` by unfolding. -/
def misRun (b : Board) : Board × Bool :=
  ((if (removeBadTrackSegments b.pads
        (delete_null_segments (buildConn b).tracks).1).2 then
      ((buildConn { b with tracks := (removeBadTrackSegments b.pads
        (delete_null_segments (buildConn b).tracks).1).1 } : Board), true)
    else
      ({ b with tracks := (removeBadTrackSegments b.pads
        (delete_null_segments (buildConn b).tracks).1).1 }, false)).1,
    ((false || (delete_null_segments (buildConn b).tracks).2) ||
        (if (removeBadTrackSegments b.pads
            (delete_null_segments (buildConn b).tracks).1).2 then
          ((buildConn { b with tracks := (removeBadTrackSegments b.pads
            (delete_null_segments (buildConn b).tracks).1).1 } : Board), true)
        else
          ({ b with tracks := (removeBadTrackSegments b.pads
            (delete_null_segments (buildConn b).tracks).1).1 }, false)).2) ||
      false)

theorem CleanupBoard_mis_eq (b : Board) :
    CleanupBoard b true false false false = misRun b := rfl

theorem CleanupBoard_mis_board (b : Board) :
    (CleanupBoard b true false false false).1 =
      { b with tracks := (removeBadTrackSegments b.pads
        (delete_null_segments (buildConn b).tracks).1).1 } := by
  have himg : ∀ s ∈ (removeBadTrackSegments b.pads
      (delete_null_segments (buildConn b).tracks).1).1,
      ∃ x, s = buildConnTrack b.pads x := by
    intro s hs
    have h1 : s ∈ (buildConn b).tracks :=
      delete_null_sub _ s (removeBad_sub hs)
    obtain ⟨x, _, rfl⟩ := List.mem_map.mp h1
    exact ⟨x, rfl⟩
  rw [CleanupBoard_mis_eq]
  unfold misRun
  generalize hSg : (removeBadTrackSegments b.pads
    (delete_null_segments (buildConn b).tracks).1).1 = S at himg ⊢
  have hmap : S.map (buildConnTrack b.pads) = S := map_bct_of_images himg
  split
  · show buildConn ({ b with tracks := S } : Board) = { b with tracks := S }
    show ({ b with tracks := S.map (buildConnTrack b.pads) } : Board) = _
    rw [hmap]
  · rfl

/-- C5: with short-circuit removal enabled (the mis-connect-only run), a
trace whose two endpoints coincide with pads of two different netcodes does
not survive the cleanup, whatever its own netcode: its connected-pad
condition flags it in the sweep (at least one of the two pads has a net
differing from the trace's), and the final connectivity rebuild cannot
reintroduce it. -/
theorem CleanupBoard_short_circuit_removes (b : Board) (t : Track)
    (p1 p2 : Pad) (hk : t.kind = TKind.trace)
    (hp1 : p1 ∈ b.pads) (hp2 : p2 ∈ b.pads)
    (hpos1 : p1.pos = t.start) (hpos2 : p2.pos = t.end_)
    (hl1 : padSharesLayer p1 t = true) (hl2 : padSharesLayer p2 t = true)
    (hnet : ¬ p1.netcode = p2.netcode) :
    ¬ buildConnTrack b.pads t ∈
      (CleanupBoard b true false false false).1.tracks := by
  intro hmem
  rw [CleanupBoard_mis_board] at hmem
  have hmem' : buildConnTrack b.pads t ∈ (removeBadTrackSegments b.pads
      (delete_null_segments (buildConn b).tracks).1).1 := hmem
  have hskip : rbSkip (buildConnTrack b.pads t) = false := by
    unfold rbSkip
    have hkb : (buildConnTrack b.pads t).kind = TKind.trace := hk
    rw [hkb]
    rfl
  have hcalm := removeBad_survivors_calm b.pads
    (delete_null_segments (buildConn b).tracks).1
    (buildConnTrack b.pads t) hmem' hskip
  have hp1mem : p1 ∈ padsConnected b.pads t := by
    refine List.mem_filter.mpr ⟨hp1, ?_⟩
    rw [hl1]
    simp [padHitsAt, hpos1]
  have hp2mem : p2 ∈ padsConnected b.pads t := by
    refine List.mem_filter.mpr ⟨hp2, ?_⟩
    rw [hl2]
    simp [padHitsAt, hpos2]
  have hpadtrue : ((padsConnected b.pads (buildConnTrack b.pads t)).any fun p =>
      decide (p.netcode ≠ (buildConnTrack b.pads t).netcode)) = true := by
    rw [padsConnected_buildConnTrack, netcode_buildConnTrack, List.any_eq_true]
    by_cases h1 : p1.netcode = t.netcode
    · refine ⟨p2, hp2mem, decide_eq_true ?_⟩
      intro hc
      exact hnet (by rw [h1, hc])
    · exact ⟨p1, hp1mem, decide_eq_true h1⟩
  rw [hcalm.1] at hpadtrue
  exact Bool.false_ne_true hpadtrue

/-- Board with a net-7 trace strung between a net-1 pad and a net-2 pad. -/
def C5board : Board :=
  { tracks := [mkTrace 7 (0, 0) (10, 0)],
    pads := [⟨(0, 0), 1, [0]⟩, ⟨(10, 0), 2, [0]⟩], zones := [],
    copperLayers := 2 }

/-- Witness for C5 on the concrete short-circuited board. -/
theorem CleanupBoard_short_circuit_removes_witness :
    ¬ buildConnTrack C5board.pads (mkTrace 7 (0, 0) (10, 0)) ∈
      (CleanupBoard C5board true false false false).1.tracks :=
  CleanupBoard_short_circuit_removes C5board (mkTrace 7 (0, 0) (10, 0))
    ⟨(0, 0), 1, [0]⟩ ⟨(10, 0), 2, [0]⟩ (by decide) (by decide) (by decide)
    (by decide) (by decide) (by decide) (by decide) (by decide)

/-- Board for the idempotence counterexample: same-net traces `A`
(`(0,0)-(10,0)`), `B` (`(10,0)-(20,0)`) and the stub `C` (`(10,0)-(10,5)`)
whose far end sits on a pad of a different net.  `C`'s presence at the
junction `(10,0)` blocks the `A`+`B` collinear merge in the first run; the
short-circuit pass then removes `C`, and the second run merges `A`+`B`. -/
def C1board : Board :=
  { tracks := [mkTrace 1 (0, 0) (10, 0), mkTrace 1 (10, 0) (20, 0),
      mkTrace 1 (10, 0) (10, 5)],
    pads := [⟨(10, 5), 2, [0]⟩], zones := [], copperLayers := 2 }

/-- C1 (counterexample): with merge and short-circuit removal enabled (vias
and dangling off), the first cleanup of `C1board` removes the mis-connected
stub and reports a change — and the *second* cleanup still modifies the
board (it merges the two now-unobstructed collinear segments into one) and
returns `true`, contradicting the claimed idempotence. -/
theorem CleanupBoard_not_idempotent_cex :
    (CleanupBoard C1board true false true false).2 = true ∧
      (CleanupBoard (CleanupBoard C1board true false true false).1
        true false true false).2 = true ∧
      (CleanupBoard (CleanupBoard C1board true false true false).1
        true false true false).1.tracks.length = 1 := by
  decide

/-- C1 (amended): the pipeline with only short-circuit removal enabled is
idempotent: a second `CleanupBoard( true, false, false, false )` run on the
result of a first one removes and modifies nothing and returns `false`.
(With merging enabled idempotence fails: a removal in the short-circuit
pass can expose a collinear pair that only the next run merges.) -/
theorem CleanupBoard_mis_only_idempotent (b : Board) :
    CleanupBoard (CleanupBoard b true false false false).1
        true false false false =
      ((CleanupBoard b true false false false).1, false) := by
  rw [CleanupBoard_mis_board b]
  have himg : ∀ s ∈ (removeBadTrackSegments b.pads
      (delete_null_segments (buildConn b).tracks).1).1,
      ∃ x, s = buildConnTrack b.pads x := by
    intro s hs
    have h1 : s ∈ (buildConn b).tracks :=
      delete_null_sub _ s (removeBad_sub hs)
    obtain ⟨x, _, rfl⟩ := List.mem_map.mp h1
    exact ⟨x, rfl⟩
  have hSnonull : ∀ t ∈ (removeBadTrackSegments b.pads
      (delete_null_segments (buildConn b).tracks).1).1, t.isNull = false :=
    fun t ht => delete_null_nonull _ t (removeBad_sub ht)
  have hrb2 := removeBad_idem b.pads (delete_null_segments (buildConn b).tracks).1
  rw [CleanupBoard_mis_eq]
  unfold misRun
  generalize hSg : (removeBadTrackSegments b.pads
    (delete_null_segments (buildConn b).tracks).1).1 = S at himg hSnonull hrb2 ⊢
  have hmap : S.map (buildConnTrack b.pads) = S := map_bct_of_images himg
  have hbuild : buildConn ({ b with tracks := S } : Board) =
      { b with tracks := S } := by
    show ({ b with tracks := S.map (buildConnTrack b.pads) } : Board) = _
    rw [hmap]
  have hdn2 : delete_null_segments S = (S, false) :=
    delete_null_of_nonull _ hSnonull
  rw [hbuild]
  show ((if (removeBadTrackSegments b.pads (delete_null_segments S).1).2 then
      ((buildConn { b with tracks := (removeBadTrackSegments b.pads
          (delete_null_segments S).1).1 } : Board), true)
    else
      ({ b with tracks := (removeBadTrackSegments b.pads
          (delete_null_segments S).1).1 }, false)).1,
    ((false || (delete_null_segments S).2) ||
        (if (removeBadTrackSegments b.pads (delete_null_segments S).1).2 then
          ((buildConn { b with tracks := (removeBadTrackSegments b.pads
              (delete_null_segments S).1).1 } : Board), true)
        else
          ({ b with tracks := (removeBadTrackSegments b.pads
              (delete_null_segments S).1).1 }, false)).2) ||
      false) = (({ b with tracks := S } : Board), false)
  rw [hdn2]
  show ((if (removeBadTrackSegments b.pads S).2 then
      ((buildConn { b with tracks := (removeBadTrackSegments b.pads S).1 } :
        Board), true)
    else ({ b with tracks := (removeBadTrackSegments b.pads S).1 }, false)).1,
    ((false || false) ||
        (if (removeBadTrackSegments b.pads S).2 then
          ((buildConn { b with tracks := (removeBadTrackSegments b.pads S).1 } :
            Board), true)
        else
          ({ b with tracks := (removeBadTrackSegments b.pads S).1 },
            false)).2) || false) = (({ b with tracks := S } : Board), false)
  rw [hrb2]
  rfl
